import Mathlib

/-! Verification development for the channel construction core
(`src/channel.rs` of the `lightning_encoding` repository): the
transaction graph (`TxGraph`), its iterator (`GraphIter`), and the
extension composition engine (`Channel`). Rust `BTreeMap`s are embedded
as association lists kept in strictly ascending key order; machine
integers (`u8`, `u16`, `u32`, `u64`, `usize`) are embedded as `Nat` and
`i32` as `Int` (no arithmetic in the embedded code can overflow on the
inputs the theorems use). -/

namespace ChannelSpec

/-! ### Ordered association maps (embedding of `BTreeMap`)

`mapLookup` finds the first entry with the given key; `mapInsert`
inserts a binding, replacing the binding of an equal key, and keeps a
strictly-ascending key list strictly ascending, matching `BTreeMap`'s
unique-key, ascending-iteration behaviour. -/

def mapLookup {K V : Type} [DecidableEq K] (k : K) : List (K × V) → Option V
  | [] => none
  | (k', v') :: rest => if k' = k then some v' else mapLookup k rest

def mapInsert {K V : Type} [LinearOrder K] (k : K) (v : V) : List (K × V) → List (K × V)
  | [] => [(k, v)]
  | (k', v') :: rest =>
    if k < k' then (k, v) :: (k', v') :: rest
    else if k = k' then (k, v) :: rest
    else (k', v') :: mapInsert k v rest

theorem mapLookup_nil {K V : Type} [DecidableEq K] (k : K) :
    mapLookup (V := V) k [] = none := rfl

theorem mapLookup_cons {K V : Type} [DecidableEq K] (k k' : K) (v' : V) (rest : List (K × V)) :
    mapLookup k ((k', v') :: rest) = if k' = k then some v' else mapLookup k rest := rfl

theorem mapLookup_insert_self {K V : Type} [LinearOrder K] (k : K) (v : V) (l : List (K × V)) :
    mapLookup k (mapInsert k v l) = some v := by
  induction l with
  | nil => simp [mapInsert, mapLookup]
  | cons p rest ih =>
    obtain ⟨k', v'⟩ := p
    by_cases h1 : k < k'
    · simp [mapInsert, h1, mapLookup]
    · by_cases h2 : k = k'
      · subst h2
        simp [mapInsert, mapLookup]
      · have h2' : ¬ k' = k := fun h => h2 h.symm
        simp [mapInsert, h1, h2, mapLookup, h2', ih]

theorem mapLookup_insert_ne {K V : Type} [LinearOrder K] (k j : K) (v : V) (l : List (K × V))
    (hne : j ≠ k) :
    mapLookup j (mapInsert k v l) = mapLookup j l := by
  have hkj : ¬ k = j := fun h => hne h.symm
  induction l with
  | nil => simp [mapInsert, mapLookup, hkj]
  | cons p rest ih =>
    obtain ⟨k', v'⟩ := p
    by_cases h1 : k < k'
    · simp [mapInsert, h1, mapLookup, hkj]
    · by_cases h2 : k = k'
      · subst h2
        simp [mapInsert, mapLookup, hkj]
      · simp [mapInsert, h1, h2, mapLookup, ih]

/-- Keys of an association list. -/
def mapKeys {K V : Type} (l : List (K × V)) : List K := l.map Prod.fst

/-- Executable strict-ascending check used to decide well-formedness. -/
def chainLtB {K : Type} [LinearOrder K] : List K → Bool
  | [] => true
  | [_] => true
  | a :: b :: rest => decide (a < b) && chainLtB (b :: rest)

theorem chainLtB_iff {K : Type} [LinearOrder K] : (l : List K) →
    (chainLtB l = true ↔ List.Chain' (· < ·) l)
  | [] => by simp [chainLtB]
  | [a] => by simp [chainLtB]
  | a :: b :: rest => by
    rw [chainLtB, Bool.and_eq_true, decide_eq_true_eq, List.chain'_cons]
    exact and_congr Iff.rfl (chainLtB_iff (b :: rest))

theorem mapKeys_insert_head {K V : Type} [LinearOrder K] (k : K) (v : V) (l : List (K × V))
    (x : K) (hx : (mapKeys (mapInsert k v l)).head? = some x) :
    x = k ∨ (mapKeys l).head? = some x := by
  cases l with
  | nil =>
    simp [mapInsert, mapKeys] at hx
    exact Or.inl hx.symm
  | cons p rest =>
    obtain ⟨k', v'⟩ := p
    by_cases h1 : k < k'
    · simp [mapInsert, h1, mapKeys] at hx
      exact Or.inl hx.symm
    · by_cases h2 : k = k'
      · simp [mapInsert, h1, h2, mapKeys] at hx
        exact Or.inl (h2.symm ▸ hx.symm)
      · simp [mapInsert, h1, h2, mapKeys] at hx
        right
        simpa [mapKeys] using hx

theorem mapKeys_insert_chain {K V : Type} [LinearOrder K] (k : K) (v : V) (l : List (K × V))
    (h : List.Chain' (· < ·) (mapKeys l)) :
    List.Chain' (· < ·) (mapKeys (mapInsert k v l)) := by
  induction l with
  | nil => simp [mapInsert, mapKeys]
  | cons p rest ih =>
    obtain ⟨k', v'⟩ := p
    have htail : List.Chain' (· < ·) (mapKeys rest) := by
      simpa [mapKeys] using h.tail
    by_cases h1 : k < k'
    · have heq : mapInsert k v ((k', v') :: rest) = (k, v) :: (k', v') :: rest := by
        simp [mapInsert, h1]
      rw [heq]
      refine List.chain'_cons'.2 ⟨?_, by simpa [mapKeys] using h⟩
      intro y hy
      simp [mapKeys] at hy
      exact hy ▸ h1
    · by_cases h2 : k = k'
      · subst h2
        have heq : mapInsert k v ((k, v') :: rest) = (k, v) :: rest := by
          simp [mapInsert]
        rw [heq]
        simpa [mapKeys] using h
      · have h3 : k' < k := by
          rcases lt_trichotomy k k' with h | h | h
          · exact absurd h h1
          · exact absurd h h2
          · exact h
        have heq : mapInsert k v ((k', v') :: rest) = (k', v') :: mapInsert k v rest := by
          simp [mapInsert, h1, h2]
        rw [heq]
        refine List.chain'_cons'.2 ⟨?_, ih htail⟩
        intro y hy
        rcases mapKeys_insert_head k v rest y (by simpa [mapKeys] using hy) with hk | hmem
        · exact hk.symm ▸ h3
        · have hc := List.chain'_cons'.1 (by simpa [mapKeys] using h)
          exact hc.1 y hmem

/-! ### Bitcoin data model

Shallow embedding of the `bitcoin` crate structures the channel code
stores: transactions, inputs, outputs, outpoints and partially signed
transactions. Script bytes and witness items are byte lists. -/

structure OutPoint where
  txid : Nat
  vout : Nat
deriving DecidableEq, Repr

/-- Modelled from the spec: the `bitcoin` crate's null outpoint used by
`none!()` in `TxGraph::default()` (all-zero txid, `u32::MAX` vout). -/
def OutPoint.null : OutPoint := ⟨0, 4294967295⟩

structure TxOut where
  value : Nat
  script_pubkey : List Nat
deriving DecidableEq, Repr

structure TxIn where
  previous_output : OutPoint
  script_sig : List Nat
  sequence : Nat
  witness : List (List Nat)
deriving DecidableEq, Repr

structure Transaction where
  version : Int
  lock_time : Nat
  input : List TxIn
  output : List TxOut
deriving DecidableEq, Repr

structure Psbt where
  unsigned_tx : Transaction
deriving DecidableEq, Repr

/-- Modelled from the spec: `Psbt::from_unsigned_tx` of the external
`bitcoin` crate (not part of this repository). Per the spec and the
`expect` message in `TxGraph::render_cmt`, the construction fails
exactly when some input carries a non-empty `script_sig` or a non-empty
`witness`; `none` embeds the error case. -/
def Psbt.from_unsigned_tx (tx : Transaction) : Option Psbt :=
  if tx.input.all (fun i => i.script_sig.isEmpty && i.witness.isEmpty) then
    some ⟨tx⟩
  else
    none

/-! ### Transaction graph (`TxGraph`, `src/channel.rs` lines 236-366)

Roles (`u16`) and indices (`u64`) are embedded as `Nat`; the nested
`BTreeMap<u16, BTreeMap<u64, Psbt>>` as a nested ordered association
list. -/

structure TxGraph where
  funding_parties : Nat
  funding_threshold : Nat
  funding_tx : Psbt
  funding_outpoint : OutPoint
  commitment_outpoint : OutPoint
  cmt_version : Int
  cmt_locktime : Nat
  cmt_sequence : Nat
  cmt_outs : List TxOut
  graph : List (Nat × List (Nat × Psbt))
deriving DecidableEq, Repr

/-- Embedding of `TxGraph::tx`: `self.graph.get(&role).and_then(|v| v.get(&index))`. -/
def TxGraph.tx (g : TxGraph) (role index : Nat) : Option Psbt :=
  (mapLookup role g.graph).bind (fun v => mapLookup index v)

/-- Embedding of `TxGraph::insert_tx`:
`self.graph.entry(role).or_insert(empty!()).insert(index, psbt)`.
Returns the previous binding of the inner map together with the updated
graph (the Rust mutates in place and returns only the previous value). -/
def TxGraph.insert_tx (g : TxGraph) (role index : Nat) (psbt : Psbt) :
    Option Psbt × TxGraph :=
  let inner := (mapLookup role g.graph).getD []
  (mapLookup index inner,
   { g with graph := mapInsert role (mapInsert index psbt inner) g.graph })

/-- Embedding of `TxGraph::len`: sum of the inner map sizes. -/
def TxGraph.len (g : TxGraph) : Nat :=
  g.graph.foldl (fun sum p => sum + p.2.length) 0

/-- Embedding of `TxGraph::last_index`: size of the inner map under `role`. -/
def TxGraph.last_index (g : TxGraph) (role : Nat) : Nat :=
  match mapLookup role g.graph with
  | some m => m.length
  | none => 0

/-- Commitment transaction literal built by `TxGraph::render_cmt`. -/
def TxGraph.cmtTx (g : TxGraph) : Transaction :=
  { version := g.cmt_version
    lock_time := g.cmt_locktime
    input := [{ previous_output := g.funding_outpoint
                script_sig := []
                sequence := g.cmt_sequence
                witness := [] }]
    output := g.cmt_outs }

/-- Embedding of `TxGraph::render_cmt`; the Rust `expect` (a panic on
`Err`) is embedded as the `none` case of `Psbt.from_unsigned_tx`. -/
def TxGraph.render_cmt (g : TxGraph) : Option Psbt :=
  Psbt.from_unsigned_tx g.cmtTx

/-- Embedding of `TxGraph::render`: the freshly derived commitment
transaction followed by every stored transaction in the nested map's
iteration order; `none` would propagate a `render_cmt` panic. -/
def TxGraph.render (g : TxGraph) : Option (List Psbt) :=
  (g.render_cmt).map
    (fun cmt => cmt :: g.graph.flatMap (fun p => p.2.map Prod.snd))

/-- All stored transactions with their keys, in storage order. -/
def TxGraph.triples (g : TxGraph) : List (Nat × Nat × Psbt) :=
  g.graph.flatMap (fun p => p.2.map (fun q => (p.1, q.1, q.2)))

/-- Well-formedness carried by the `BTreeMap` representation: outer keys
strictly ascending and every inner key list strictly ascending. -/
def TxGraph.WF (g : TxGraph) : Prop :=
  List.Chain' (· < ·) (mapKeys g.graph) ∧
  ∀ p ∈ g.graph, List.Chain' (· < ·) (mapKeys p.2)

instance (g : TxGraph) : Decidable g.WF :=
  decidable_of_iff
    (chainLtB (mapKeys g.graph) = true ∧
      ∀ p ∈ g.graph, chainLtB (mapKeys p.2) = true)
    (and_congr (chainLtB_iff _)
      (forall_congr' fun _ => forall_congr' fun _ => chainLtB_iff _))

/-- Embedding of `TxGraph::default()` (`impl Default for TxGraph`). -/
def TxGraph.default : TxGraph :=
  { funding_parties := 0
    funding_threshold := 0
    funding_tx := ⟨{ version := 2, lock_time := 0, input := [], output := [] }⟩
    funding_outpoint := OutPoint.null
    commitment_outpoint := OutPoint.null
    cmt_version := 2
    cmt_locktime := 0
    cmt_sequence := 0
    cmt_outs := []
    graph := [] }

/-! ### Graph iterator (`GraphIter`, `src/channel.rs` lines 368-396) -/

structure GraphIter where
  graph : TxGraph
  curr_role : Nat
  curr_index : Nat
deriving DecidableEq, Repr

/-- Embedding of `GraphIter::with`: cursor starts at role 0, index 0. -/
def GraphIter.with' (g : TxGraph) : GraphIter :=
  { graph := g, curr_role := 0, curr_index := 0 }

/-- Embedding of `Iterator::next` for `GraphIter`: look up the current
(role, index); on a miss advance to the next role at index 0 and retry
once; then increment the index unconditionally and package the result.
Returns the updated iterator together with the yielded item. -/
def GraphIter.next (it : GraphIter) : GraphIter × Option (Nat × Nat × Psbt) :=
  match it.graph.tx it.curr_role it.curr_index with
  | some tx =>
      ({ it with curr_index := it.curr_index + 1 },
       some (it.curr_role, it.curr_index + 1, tx))
  | none =>
      match it.graph.tx (it.curr_role + 1) 0 with
      | some tx =>
          ({ it with curr_role := it.curr_role + 1, curr_index := 1 },
           some (it.curr_role + 1, 1, tx))
      | none =>
          ({ it with curr_role := it.curr_role + 1, curr_index := 1 }, none)

/-! ### Errors and the extension composition protocol

`Error` is transcribed from `src/channel.rs` lines 40-48. The
`Extension` / `ChannelExtension` traits themselves live in
`super::extension`, which is not under `src/`; an extension object is
embedded, per the spec's contract (identity, peer-message reaction,
owned opaque state, graph mutation), as an immutable method table over
a mutable private state of type `St`. `N` is the nomenclature (identity)
type, `S` the opaque state-snapshot type, `M` the opaque peer-message
type. Heterogeneous boxed trait objects are covered by quantifying over
`St` (a sum type recovers any mixture of concrete extension types). -/

inductive Error where
  | Extension : String → Error
  | Htlc : String → Error
deriving DecidableEq, Repr

/-- Modelled from the spec: a `Box<dyn ChannelExtension<Identity = N>>`
(the trait is declared in the missing `super::extension` module). The
method table (`idFn`, `updFn`, `extStateFn`, `applyFn`) is the trait
vtable; `state` is the extension object's own mutable state. -/
structure ChanExt (N S M St : Type) where
  idFn : St → N
  updFn : St → M → St × Option Error
  extStateFn : St → S
  applyFn : St → TxGraph → St × TxGraph × Option Error
  state : St

/-- Embedding of the trait method `identity(&self)`. -/
def ChanExt.identity {N S M St : Type} (e : ChanExt N S M St) : N :=
  e.idFn e.state

/-- Embedding of the trait method `extension_state(&self)`. -/
def ChanExt.extension_state {N S M St : Type} (e : ChanExt N S M St) : S :=
  e.extStateFn e.state

/-- One call of `update_from_peer(&mut self, message)` on an extension
object: the state is replaced, the method table is unchanged. -/
def ChanExt.runUpd {N S M St : Type} (e : ChanExt N S M St) (msg : M) :
    ChanExt N S M St × Option Error :=
  ({ e with state := (e.updFn e.state msg).1 }, (e.updFn e.state msg).2)

/-- One call of `apply(&mut self, tx_graph)` on an extension object. -/
def ChanExt.runApply {N S M St : Type} (e : ChanExt N S M St) (g : TxGraph) :
    ChanExt N S M St × TxGraph × Option Error :=
  ({ e with state := (e.applyFn e.state g).1 },
   (e.applyFn e.state g).2.1, (e.applyFn e.state g).2.2)

/-! ### Channel (`src/channel.rs` lines 69-222) -/

/-- Embedding of `Channel<N>`: one constructor extension and two
identity-keyed ordered collections (`ExtensionQueue<N>` =
`BTreeMap<N, Box<dyn ChannelExtension<Identity = N>>>`). -/
structure Channel (N S M St : Type) where
  constructor : ChanExt N S M St
  extenders : List (N × ChanExt N S M St)
  modifiers : List (N × ChanExt N S M St)

/-- Embedding of `Channel::with`: folds each iterable into an
identity-keyed ordered collection. -/
def Channel.with' {N S M St : Type} [LinearOrder N]
    (constructor : ChanExt N S M St)
    (extenders modifiers : List (ChanExt N S M St)) : Channel N S M St :=
  { constructor := constructor
    extenders := extenders.foldl (fun queue e => mapInsert e.identity e queue) []
    modifiers := modifiers.foldl (fun queue e => mapInsert e.identity e queue) [] }

/-- Embedding of `Channel::add_extension`. -/
def Channel.add_extension {N S M St : Type} [LinearOrder N]
    (ch : Channel N S M St) (extension : ChanExt N S M St) : Channel N S M St :=
  { ch with extenders := mapInsert extension.identity extension ch.extenders }

/-- Embedding of `Channel::add_modifier`. -/
def Channel.add_modifier {N S M St : Type} [LinearOrder N]
    (ch : Channel N S M St) (modifier : ChanExt N S M St) : Channel N S M St :=
  { ch with modifiers := mapInsert modifier.identity modifier ch.modifiers }

/-- Embedding of `self.extenders.iter_mut().try_for_each(|(_, e)|
e.update_from_peer(message))`: walks the collection in storage order,
replacing each entry's extension by its updated self, stopping at the
first error; entries after the error keep their old state. -/
def queueUpd {N S M St : Type} (msg : M) :
    List (N × ChanExt N S M St) → List (N × ChanExt N S M St) × Option Error
  | [] => ([], none)
  | (k, e) :: rest =>
    match ChanExt.runUpd e msg with
    | (e', some err) => ((k, e') :: rest, some err)
    | (e', none) =>
      match queueUpd msg rest with
      | (rest', r) => ((k, e') :: rest', r)

/-- Embedding of `self.extenders.iter_mut().try_for_each(|(_, e)|
e.apply(tx_graph))`: like `queueUpd` but threading the mutable graph. -/
def queueApply {N S M St : Type} :
    List (N × ChanExt N S M St) → TxGraph →
      List (N × ChanExt N S M St) × TxGraph × Option Error
  | [], g => ([], g, none)
  | (k, e) :: rest, g =>
    match ChanExt.runApply e g with
    | (e', g', some err) => ((k, e') :: rest, g', some err)
    | (e', g', none) =>
      match queueApply rest g' with
      | (rest', g'', r) => ((k, e') :: rest', g'', r)

/-- Embedding of `<Channel<N> as Extension>::update_from_peer`
(lines 163-173): nomenclature-level reaction, then constructor, then
extenders, then modifiers, each short-circuiting via `?`. The
nomenclature's static `N::update_from_peer` is an explicit function
argument (its trait lives in the missing `super::extension`). -/
def Channel.update_from_peer {N S M St : Type}
    (nomUpd : Channel N S M St → M → Channel N S M St × Option Error)
    (ch : Channel N S M St) (msg : M) : Channel N S M St × Option Error :=
  match nomUpd ch msg with
  | (ch1, some e) => (ch1, some e)
  | (ch1, none) =>
    match ChanExt.runUpd ch1.constructor msg with
    | (c', some e) => ({ ch1 with constructor := c' }, some e)
    | (c', none) =>
      match queueUpd msg ch1.extenders with
      | (exts', some e) => ({ ch1 with constructor := c', extenders := exts' }, some e)
      | (exts', none) =>
        match queueUpd msg ch1.modifiers with
        | (mods', r) =>
          ({ ch1 with constructor := c', extenders := exts', modifiers := mods' }, r)

/-- Embedding of `<Channel<N> as ChannelExtension>::apply`
(lines 212-221): constructor, then extenders, then modifiers, each
short-circuiting via `?`, all mutating the shared graph in place. -/
def Channel.apply {N S M St : Type}
    (ch : Channel N S M St) (g : TxGraph) :
    Channel N S M St × TxGraph × Option Error :=
  match ChanExt.runApply ch.constructor g with
  | (c', g1, some e) => ({ ch with constructor := c' }, g1, some e)
  | (c', g1, none) =>
    match queueApply ch.extenders g1 with
    | (exts', g2, some e) =>
      ({ ch with constructor := c', extenders := exts' }, g2, some e)
    | (exts', g2, none) =>
      match queueApply ch.modifiers g2 with
      | (mods', g3, r) =>
        ({ ch with constructor := c', extenders := exts', modifiers := mods' }, g3, r)

/-- Embedding of `<Channel<N> as Extension>::extension_state`
(lines 175-188): insert the constructor's state under its identity,
then every extender's state under its map key, then every modifier's
state under its map key. -/
def Channel.extension_state {N S M St : Type} [LinearOrder N]
    (ch : Channel N S M St) : List (N × S) :=
  let data := mapInsert ch.constructor.identity ch.constructor.extension_state []
  let data := ch.extenders.foldl
    (fun data p => mapInsert p.1 p.2.extension_state data) data
  ch.modifiers.foldl (fun data p => mapInsert p.1 p.2.extension_state data) data

/-- Embedding of `<Channel<N> as ChannelExtension>::channel_state`
(lines 197-210); transcribed separately from its own source body. -/
def Channel.channel_state {N S M St : Type} [LinearOrder N]
    (ch : Channel N S M St) : List (N × S) :=
  let data := mapInsert ch.constructor.identity ch.constructor.extension_state []
  let data := ch.extenders.foldl
    (fun data p => mapInsert p.1 p.2.extension_state data) data
  ch.modifiers.foldl (fun data p => mapInsert p.1 p.2.extension_state data) data

/-! ### Specification-side sequential executors

These follow the spec's words for the three-phase order: one flat list
of children processed strictly left to right, stopping at the first
error, keeping the updates (state and graph) already made. -/

/-- Children of a channel in the order the spec prescribes: constructor
first, then the extenders, then the modifiers. -/
def Channel.childList {N S M St : Type} (ch : Channel N S M St) :
    List (ChanExt N S M St) :=
  ch.constructor :: (ch.extenders.map Prod.snd ++ ch.modifiers.map Prod.snd)

/-- Specification-side sequential `update_from_peer` over a flat list of
children: left to right, first error aborts, updates so far are kept. -/
def seqUpd {N S M St : Type} (msg : M) :
    List (ChanExt N S M St) → List (ChanExt N S M St) × Option Error
  | [] => ([], none)
  | e :: rest =>
    match ChanExt.runUpd e msg with
    | (e', some err) => (e' :: rest, some err)
    | (e', none) =>
      match seqUpd msg rest with
      | (rest', r) => (e' :: rest', r)

/-- Specification-side sequential `apply` over a flat list of children:
left to right, first error aborts and is propagated, and the graph
mutations already made (including the failing child's) are kept. -/
def seqApply {N S M St : Type} :
    List (ChanExt N S M St) → TxGraph →
      List (ChanExt N S M St) × TxGraph × Option Error
  | [], g => ([], g, none)
  | e :: rest, g =>
    match ChanExt.runApply e g with
    | (e', g', some err) => (e' :: rest, g', some err)
    | (e', g', none) =>
      match seqApply rest g' with
      | (rest', g'', r) => (e' :: rest', g'', r)

/-- Well-formedness of a channel's collections, maintained by
`Channel.with'` / `add_extension` / `add_modifier`: keys strictly
ascending and every entry stored under its own identity. -/
def Channel.WF {N S M St : Type} [LinearOrder N] (ch : Channel N S M St) : Prop :=
  List.Chain' (· < ·) (mapKeys ch.extenders) ∧
  List.Chain' (· < ·) (mapKeys ch.modifiers) ∧
  (∀ p ∈ ch.extenders, ChanExt.identity p.2 = p.1) ∧
  (∀ p ∈ ch.modifiers, ChanExt.identity p.2 = p.1)

instance {N S M St : Type} [LinearOrder N]
    (ch : Channel N S M St) : Decidable ch.WF :=
  decidable_of_iff
    (chainLtB (mapKeys ch.extenders) = true ∧
      chainLtB (mapKeys ch.modifiers) = true ∧
      (∀ p ∈ ch.extenders, ChanExt.identity p.2 = p.1) ∧
      (∀ p ∈ ch.modifiers, ChanExt.identity p.2 = p.1))
    (and_congr (chainLtB_iff _) (and_congr (chainLtB_iff _) Iff.rfl))

/-! ### Supporting lemmas about `TxGraph` -/

theorem render_cmt_eq (g : TxGraph) :
    g.render_cmt =
      some ⟨{ version := g.cmt_version
              lock_time := g.cmt_locktime
              input := [{ previous_output := g.funding_outpoint
                          script_sig := []
                          sequence := g.cmt_sequence
                          witness := [] }]
              output := g.cmt_outs }⟩ := by
  simp [TxGraph.render_cmt, Psbt.from_unsigned_tx, TxGraph.cmtTx, List.all, List.isEmpty]

theorem foldl_add_length (outer : List (Nat × List (Nat × Psbt))) (a : Nat) :
    outer.foldl (fun sum p => sum + p.2.length) a =
      a + (outer.flatMap (fun p => p.2.map Prod.snd)).length := by
  induction outer generalizing a with
  | nil => simp
  | cons p rest ih =>
    simp [List.flatMap_cons, ih]
    omega

theorem triples_snd (g : TxGraph) :
    g.triples.map (fun t => t.2.2) = g.graph.flatMap (fun p => p.2.map Prod.snd) := by
  unfold TxGraph.triples
  rw [List.map_flatMap]
  congr 1
  funext p
  simp

/-- Strict lexicographic order on (role, index) keys. -/
def keyLt (a b : Nat × Nat) : Prop :=
  a.1 < b.1 ∨ (a.1 = b.1 ∧ a.2 < b.2)

instance : DecidableRel keyLt := fun a b =>
  inferInstanceAs (Decidable (a.1 < b.1 ∨ (a.1 = b.1 ∧ a.2 < b.2)))

/-- Key pairs of the stored transactions, in storage order. -/
def keyPairs (outer : List (Nat × List (Nat × Psbt))) : List (Nat × Nat) :=
  outer.flatMap (fun p => p.2.map (fun q => (p.1, q.1)))

theorem keyPairs_fst_mem (outer : List (Nat × List (Nat × Psbt)))
    (y : Nat × Nat) (hy : y ∈ keyPairs outer) : y.1 ∈ mapKeys outer := by
  unfold keyPairs at hy
  rcases List.mem_flatMap.1 hy with ⟨p, hp, hyp⟩
  rcases List.mem_map.1 hyp with ⟨q, _, rfl⟩
  exact List.mem_map.2 ⟨p, hp, rfl⟩

theorem keyPairs_chain (outer : List (Nat × List (Nat × Psbt)))
    (h1 : List.Chain' (· < ·) (mapKeys outer))
    (h2 : ∀ p ∈ outer, List.Chain' (· < ·) (mapKeys p.2)) :
    List.Chain' keyLt (keyPairs outer) := by
  induction outer with
  | nil => simp [keyPairs]
  | cons p rest ih =>
    obtain ⟨r, inner⟩ := p
    have hblock : List.Chain' keyLt (inner.map (fun q => (r, q.1))) := by
      have hin : List.Chain' (· < ·) (mapKeys inner) := h2 (r, inner) (by simp)
      have hin' : List.Chain' (fun q q' : Nat × Psbt => q.1 < q'.1) inner :=
        (List.chain'_map Prod.fst).1 hin
      exact (List.chain'_map (fun q : Nat × Psbt => (r, q.1))).2
        (hin'.imp (fun a b hab => Or.inr ⟨rfl, hab⟩))
    have hrest : List.Chain' keyLt (keyPairs rest) := by
      refine ih ?_ ?_
      · simpa [mapKeys] using h1.tail
      · intro q hq
        exact h2 q (List.mem_cons_of_mem _ hq)
    have hpw : List.Pairwise (· < ·) (mapKeys ((r, inner) :: rest)) :=
      List.chain'_iff_pairwise.1 h1
    have hcross : ∀ x ∈ (inner.map (fun q => (r, q.1))).getLast?,
        ∀ y ∈ (keyPairs rest).head?, keyLt x y := by
      intro x hx y hy
      have hxmem : x ∈ inner.map (fun q => (r, q.1)) := List.mem_of_mem_getLast? hx
      have hx1 : x.1 = r := by
        rcases List.mem_map.1 hxmem with ⟨q, _, rfl⟩
        rfl
      have hymem : y ∈ keyPairs rest := List.mem_of_mem_head? hy
      have hy1 : y.1 ∈ mapKeys rest := keyPairs_fst_mem rest y hymem
      have hr : r < y.1 := by
        have hpw2 : List.Pairwise (· < ·) (r :: mapKeys rest) := hpw
        exact (List.pairwise_cons.1 hpw2).1 y.1 hy1
      exact Or.inl (hx1 ▸ hr)
    have : keyPairs ((r, inner) :: rest) =
        inner.map (fun q => (r, q.1)) ++ keyPairs rest := by
      simp [keyPairs]
    rw [this]
    exact hblock.append hrest hcross

theorem triples_keys (g : TxGraph) :
    g.triples.map (fun t => (t.1, t.2.1)) = keyPairs g.graph := by
  unfold TxGraph.triples keyPairs
  rw [List.map_flatMap]
  congr 1
  funext p
  simp

/-! ### Claim theorems about `TxGraph` -/

/-- C4: for every `TxGraph`, `render_cmt()` succeeds (the failure branch
of PSBT construction is unreachable because `script_sig` and `witness`
are empty) and returns a partially-signed wrapper of an unsigned
transaction with exactly one input spending `funding_outpoint` with
empty signature script and empty witness, sequence `cmt_sequence`,
locktime `cmt_locktime`, version `cmt_version`, and output list exactly
`cmt_outs` in order. -/
theorem render_cmt_never_fails (g : TxGraph) :
    g.render_cmt =
      some ⟨{ version := g.cmt_version
              lock_time := g.cmt_locktime
              input := [{ previous_output := g.funding_outpoint
                          script_sig := []
                          sequence := g.cmt_sequence
                          witness := [] }]
              output := g.cmt_outs }⟩ :=
  render_cmt_eq g

/-- C5: `insert_tx(role, index, psbt)` returns the value previously
stored at `(role, index)` if any and `None` otherwise, stores `psbt` at
`(role, index)` overwriting any previous value, and a subsequent
`tx(role, index)` returns the inserted `psbt`. -/
theorem insert_tx_returns_prev_and_stores (g : TxGraph) (role index : Nat) (psbt : Psbt) :
    (g.insert_tx role index psbt).1 = g.tx role index ∧
    ((g.insert_tx role index psbt).2).tx role index = some psbt := by
  constructor
  · unfold TxGraph.insert_tx TxGraph.tx
    cases h : mapLookup role g.graph <;> simp [h, mapLookup]
  · unfold TxGraph.insert_tx TxGraph.tx
    simp [mapLookup_insert_self]

/-- C10: `insert_tx(role, index, psbt)` leaves every field other than
the graph map unchanged, and within the graph map only the entry at
`(role, index)` changes: every other `(role', index')` entry is
preserved. -/
theorem insert_tx_frame (g : TxGraph) (role index : Nat) (psbt : Psbt)
    (role' index' : Nat) (h : (role', index') ≠ (role, index)) :
    ((g.insert_tx role index psbt).2).tx role' index' = g.tx role' index' ∧
    ((g.insert_tx role index psbt).2).funding_parties = g.funding_parties ∧
    ((g.insert_tx role index psbt).2).funding_threshold = g.funding_threshold ∧
    ((g.insert_tx role index psbt).2).funding_tx = g.funding_tx ∧
    ((g.insert_tx role index psbt).2).funding_outpoint = g.funding_outpoint ∧
    ((g.insert_tx role index psbt).2).commitment_outpoint = g.commitment_outpoint ∧
    ((g.insert_tx role index psbt).2).cmt_version = g.cmt_version ∧
    ((g.insert_tx role index psbt).2).cmt_locktime = g.cmt_locktime ∧
    ((g.insert_tx role index psbt).2).cmt_sequence = g.cmt_sequence ∧
    ((g.insert_tx role index psbt).2).cmt_outs = g.cmt_outs := by
  refine ⟨?_, rfl, rfl, rfl, rfl, rfl, rfl, rfl, rfl, rfl⟩
  unfold TxGraph.insert_tx TxGraph.tx
  by_cases hr : role' = role
  · subst hr
    have hi : index' ≠ index := by
      intro hx
      exact h (by rw [hx])
    rw [mapLookup_insert_self]
    cases hrole : mapLookup role' g.graph with
    | none =>
      simp [mapLookup_insert_ne index index' psbt [] hi, mapLookup]
      omega
    | some inner => simp [mapLookup_insert_ne index index' psbt inner hi]
  · rw [mapLookup_insert_ne role role' _ _ hr]

/-- C3: `render()` returns a list whose first element is the freshly
derived commitment transaction (equal to `render_cmt()`), followed by
every stored transaction in ascending role order and, within each role,
ascending index order; for the default `TxGraph`, `len() = 0` and
`render()` yields exactly one transaction, and in general the rendered
list has length `1 + len()`. -/
theorem render_order_and_length (g : TxGraph) (hwf : g.WF) :
    (∃ cmt, g.render_cmt = some cmt ∧
      g.render = some (cmt :: g.triples.map (fun t => t.2.2))) ∧
    (∀ l, g.render = some l → l.length = 1 + g.len) ∧
    List.Chain' keyLt (g.triples.map (fun t => (t.1, t.2.1))) ∧
    TxGraph.default.len = 0 ∧
    (∃ l0, TxGraph.default.render = some l0 ∧ l0.length = 1) := by
  refine ⟨?_, ?_, ?_, ?_, ?_⟩
  · refine ⟨_, render_cmt_eq g, ?_⟩
    rw [TxGraph.render, render_cmt_eq g]
    simp [triples_snd]
  · intro l hl
    rw [TxGraph.render, render_cmt_eq g] at hl
    have hl2 := Option.some.inj hl
    rw [← hl2]
    rw [TxGraph.len, foldl_add_length]
    simp
    omega
  · rw [triples_keys]
    exact keyPairs_chain g.graph hwf.1 hwf.2
  · rfl
  · exact ⟨_, rfl, rfl⟩

/-- Witness for C3 at a concrete well-formed graph with entries at
(0, 1), (0, 5) and (1, 0) (the spec's ordering scenario). -/
def psbtA : Psbt := ⟨{ version := 1, lock_time := 0, input := [], output := [] }⟩

def psbtB : Psbt := ⟨{ version := 1, lock_time := 1, input := [], output := [] }⟩

def psbtC : Psbt := ⟨{ version := 1, lock_time := 2, input := [], output := [] }⟩

def gOrd : TxGraph :=
  { TxGraph.default with graph := [(0, [(1, psbtA), (5, psbtB)]), (1, [(0, psbtC)])] }

theorem render_order_and_length_witness :
    gOrd.WF ∧
    ((∃ cmt, gOrd.render_cmt = some cmt ∧
        gOrd.render = some (cmt :: gOrd.triples.map (fun t => t.2.2))) ∧
      (∀ l, gOrd.render = some l → l.length = 1 + gOrd.len) ∧
      List.Chain' keyLt (gOrd.triples.map (fun t => (t.1, t.2.1))) ∧
      TxGraph.default.len = 0 ∧
      (∃ l0, TxGraph.default.render = some l0 ∧ l0.length = 1)) :=
  ⟨by decide, render_order_and_length gOrd (by decide)⟩

/-- Witness for C10 at a concrete input: inserting at (0, 5) preserves
the entry at (0, 1). -/
theorem insert_tx_frame_witness :
    (((0 : Nat), (1 : Nat)) ≠ ((0 : Nat), (5 : Nat))) ∧
    (((gOrd.insert_tx 0 5 psbtC).2).tx 0 1 = gOrd.tx 0 1 ∧
      ((gOrd.insert_tx 0 5 psbtC).2).funding_parties = gOrd.funding_parties ∧
      ((gOrd.insert_tx 0 5 psbtC).2).funding_threshold = gOrd.funding_threshold ∧
      ((gOrd.insert_tx 0 5 psbtC).2).funding_tx = gOrd.funding_tx ∧
      ((gOrd.insert_tx 0 5 psbtC).2).funding_outpoint = gOrd.funding_outpoint ∧
      ((gOrd.insert_tx 0 5 psbtC).2).commitment_outpoint = gOrd.commitment_outpoint ∧
      ((gOrd.insert_tx 0 5 psbtC).2).cmt_version = gOrd.cmt_version ∧
      ((gOrd.insert_tx 0 5 psbtC).2).cmt_locktime = gOrd.cmt_locktime ∧
      ((gOrd.insert_tx 0 5 psbtC).2).cmt_sequence = gOrd.cmt_sequence ∧
      ((gOrd.insert_tx 0 5 psbtC).2).cmt_outs = gOrd.cmt_outs) :=
  ⟨by decide, insert_tx_frame gOrd 0 5 psbtC 0 1 (by decide)⟩

/-! ### Claim theorems about `GraphIter` -/

/-- C7: the iterator produced by `iter()` starts its cursor at role 0,
index 0, and in every yielded triple the reported index equals the index
at which the transaction was actually found plus one (the index counter
is incremented before being embedded in the output). -/
theorem graphIter_start_and_reported_index :
    (∀ g : TxGraph,
      (GraphIter.with' g).curr_role = 0 ∧ (GraphIter.with' g).curr_index = 0) ∧
    (∀ (it : GraphIter) (r i : Nat) (tx : Psbt),
      (it.next).2 = some (r, i, tx) → 1 ≤ i ∧ it.graph.tx r (i - 1) = some tx) := by
  constructor
  · intro g
    exact ⟨rfl, rfl⟩
  · intro it r i tx h
    unfold GraphIter.next at h
    cases h1 : it.graph.tx it.curr_role it.curr_index with
    | some tx0 =>
      rw [h1] at h
      simp at h
      obtain ⟨hr, hi, htx⟩ := h
      subst hr; subst hi; subst htx
      simp [h1]
    | none =>
      rw [h1] at h
      cases h2 : it.graph.tx (it.curr_role + 1) 0 with
      | some tx0 =>
        rw [h2] at h
        simp at h
        obtain ⟨hr, hi, htx⟩ := h
        subst hr; subst hi; subst htx
        simp [h2]
      | none =>
        rw [h2] at h
        simp at h

/-- Witness for C7: on `gOrd` the first `next` misses at (0, 0), finds
the transaction at (1, 0) and reports index 1 = 0 + 1. -/
theorem graphIter_start_and_reported_index_witness :
    (((GraphIter.with' gOrd).next).2 = some (1, 1, psbtC)) ∧
    ((GraphIter.with' gOrd).curr_role = 0 ∧ (GraphIter.with' gOrd).curr_index = 0) ∧
    (1 ≤ 1 ∧ gOrd.tx 1 (1 - 1) = some psbtC) :=
  ⟨by decide,
   graphIter_start_and_reported_index.1 gOrd,
   graphIter_start_and_reported_index.2 (GraphIter.with' gOrd) 1 1 psbtC (by decide)⟩

/-- Concrete graph refuting C8 as stated: its only stored transaction
sits at role 2, index 0. -/
def gC8 : TxGraph := (TxGraph.default.insert_tx 2 0 psbtA).2

/-- C8 counterexample: on `gC8`, the first call to `next` misses at
(0, 0) and the retry at (1, 0) also misses, so that call yields `none`;
yet the very next call yields the triple stored under the later role 2.
This refutes the claim that after such a double miss the iterator
"yields nothing further on any subsequent call to next". -/
theorem graphIter_not_fused_cex :
    (gC8.tx 0 0 = none) ∧ (gC8.tx 1 0 = none) ∧
    ((GraphIter.with' gC8).next).2 = none ∧
    ((((GraphIter.with' gC8).next).1).next).2 = some (2, 1, psbtA) := by
  decide

/-- C8 amended: once a step misses at the current (role, index) and the
retry at index 0 of the just-advanced role also misses, that call
returns `none` and leaves the cursor at (role + 1, 1); the call itself
yields nothing, but subsequent calls keep advancing one role per call
and may yield triples stored under later roles (see the
counterexample). -/
theorem graphIter_double_miss_step (it : GraphIter)
    (h1 : it.graph.tx it.curr_role it.curr_index = none)
    (h2 : it.graph.tx (it.curr_role + 1) 0 = none) :
    it.next =
      ({ it with curr_role := it.curr_role + 1, curr_index := 1 }, none) := by
  unfold GraphIter.next
  rw [h1, h2]

/-- Witness for the amended C8 on `gC8`. -/
theorem graphIter_double_miss_step_witness :
    (gC8.tx 0 0 = none) ∧ (gC8.tx 1 0 = none) ∧
    (GraphIter.with' gC8).next =
      ({ graph := gC8, curr_role := 1, curr_index := 1 }, none) :=
  ⟨by decide, by decide,
   graphIter_double_miss_step (GraphIter.with' gC8) (by decide) (by decide)⟩

/-! ### Equivalence of the per-collection folds with the flat sequential
executors -/

theorem queueApply_eq {N S M St : Type} (l : List (N × ChanExt N S M St)) (g : TxGraph) :
    (queueApply l g).1.map Prod.fst = l.map Prod.fst ∧
    (queueApply l g).1.map Prod.snd = (seqApply (l.map Prod.snd) g).1 ∧
    (queueApply l g).2 = (seqApply (l.map Prod.snd) g).2 := by
  induction l generalizing g with
  | nil => exact ⟨rfl, rfl, rfl⟩
  | cons p rest ih =>
    obtain ⟨k, e⟩ := p
    rcases hre : ChanExt.runApply e g with ⟨e', g', r⟩
    cases r with
    | some err => simp [queueApply, seqApply, hre]
    | none =>
      obtain ⟨ih1, ih2, ih3⟩ := ih g'
      rcases hq : queueApply rest g' with ⟨rest', rr⟩
      rcases hs : seqApply (List.map Prod.snd rest) g' with ⟨rest2', rr2⟩
      rw [hq] at ih1 ih2 ih3
      rw [hs] at ih2 ih3
      simp [queueApply, seqApply, hre, hq, hs, ih1, ih2, ih3]

theorem seqApply_append_err {N S M St : Type} (l₁ l₂ : List (ChanExt N S M St))
    (g : TxGraph) (e : Error) (h : (seqApply l₁ g).2.2 = some e) :
    seqApply (l₁ ++ l₂) g = ((seqApply l₁ g).1 ++ l₂, (seqApply l₁ g).2.1, some e) := by
  induction l₁ generalizing g with
  | nil => simp [seqApply] at h
  | cons a rest ih =>
    rcases hra : ChanExt.runApply a g with ⟨a', g', r⟩
    cases r with
    | some err =>
      simp only [List.cons_append, seqApply, hra] at h ⊢
      simp at h
      subst h
      simp
    | none =>
      simp only [List.cons_append, seqApply, hra] at h ⊢
      rcases hs : seqApply rest g' with ⟨rest', g'', r2⟩
      rw [hs] at h
      simp at h
      subst h
      have hih := ih g' (by rw [hs])
      rw [hs] at hih
      simp only [List.append_eq]
      rw [hih]

theorem seqApply_append_ok {N S M St : Type} (l₁ l₂ : List (ChanExt N S M St))
    (g : TxGraph) (h : (seqApply l₁ g).2.2 = none) :
    seqApply (l₁ ++ l₂) g =
      ((seqApply l₁ g).1 ++ (seqApply l₂ ((seqApply l₁ g).2.1)).1,
        (seqApply l₂ ((seqApply l₁ g).2.1)).2) := by
  induction l₁ generalizing g with
  | nil => simp [seqApply]
  | cons a rest ih =>
    rcases hra : ChanExt.runApply a g with ⟨a', g', r⟩
    cases r with
    | some err =>
      simp only [seqApply, hra] at h
      simp at h
    | none =>
      simp only [List.cons_append, seqApply, hra] at h ⊢
      rcases hs : seqApply rest g' with ⟨rest', g'', r2⟩
      rw [hs] at h
      simp at h
      subst h
      have hih := ih g' (by rw [hs])
      rw [hs] at hih
      simp only [List.append_eq]
      rw [hih]

/-! ### Claim theorem for C1 -/

/-- The property C1 asserts of `Channel::apply`, packaged: the code-side
`Channel.apply` produces exactly the graph, error and updated children of
the specification-side sequential run over constructor, then extenders,
then modifiers (so the first error aborts the rest, is propagated, and
the partial graph mutation is kept); collection keys are untouched; and
the extender and modifier visit orders are strictly ascending in the
extensions' identities. -/
def applyThreePhase {N S M St : Type} [LinearOrder N]
    (ch : Channel N S M St) (g : TxGraph) : Prop :=
  ((ch.apply g).2 = (seqApply ch.childList g).2) ∧
  ((ch.apply g).1.childList = (seqApply ch.childList g).1) ∧
  ((ch.apply g).1.extenders.map Prod.fst = ch.extenders.map Prod.fst) ∧
  ((ch.apply g).1.modifiers.map Prod.fst = ch.modifiers.map Prod.fst) ∧
  List.Chain' (· < ·) (ch.extenders.map (fun p => ChanExt.identity p.2)) ∧
  List.Chain' (· < ·) (ch.modifiers.map (fun p => ChanExt.identity p.2))

/-- C1: for every Channel and TxGraph, `Channel::apply` invokes the
constructor's `apply` first, then every extender's `apply` in ascending
identity order, then every modifier's `apply` in ascending identity
order; the first child returning an error aborts the remaining sequence
and that error is propagated, with no rollback of graph mutations
already performed by earlier children. -/
theorem channel_apply_three_phase {N S M St : Type} [LinearOrder N]
    (ch : Channel N S M St) (g : TxGraph) (hwf : ch.WF) :
    applyThreePhase ch g := by
  obtain ⟨hce, hcm, hie, him⟩ := hwf
  have hide : ch.extenders.map (fun p => ChanExt.identity p.2) = mapKeys ch.extenders :=
    List.map_eq_map_iff.mpr (fun p hp => hie p hp)
  have hidm : ch.modifiers.map (fun p => ChanExt.identity p.2) = mapKeys ch.modifiers :=
    List.map_eq_map_iff.mpr (fun p hp => him p hp)
  have hmain : ((ch.apply g).2 = (seqApply ch.childList g).2) ∧
      ((ch.apply g).1.childList = (seqApply ch.childList g).1) ∧
      ((ch.apply g).1.extenders.map Prod.fst = ch.extenders.map Prod.fst) ∧
      ((ch.apply g).1.modifiers.map Prod.fst = ch.modifiers.map Prod.fst) := by
    rcases hc : ChanExt.runApply ch.constructor g with ⟨c', g1, r⟩
    cases r with
    | some e =>
      refine ⟨?_, ?_, ?_, ?_⟩ <;> simp [Channel.apply, Channel.childList, seqApply, hc]
    | none =>
      obtain ⟨q1k, q1v, q1s⟩ := queueApply_eq ch.extenders g1
      rcases hq1 : queueApply ch.extenders g1 with ⟨exts', g2, r1⟩
      rw [hq1] at q1k q1v q1s
      cases r1 with
      | some e =>
        have herr : (seqApply (ch.extenders.map Prod.snd) g1).2.2 = some e := by
          rw [← q1s]
        have hg2 : (seqApply (ch.extenders.map Prod.snd) g1).2.1 = g2 := by
          rw [← q1s]
        have happ := seqApply_append_err (ch.extenders.map Prod.snd)
          (ch.modifiers.map Prod.snd) g1 e herr
        refine ⟨?_, ?_, ?_, ?_⟩ <;>
          simp [Channel.apply, Channel.childList, seqApply, hc, hq1, happ, hg2,
            q1k, q1v]
      | none =>
        have hok : (seqApply (ch.extenders.map Prod.snd) g1).2.2 = none := by
          rw [← q1s]
        have hg2 : (seqApply (ch.extenders.map Prod.snd) g1).2.1 = g2 := by
          rw [← q1s]
        have happ := seqApply_append_ok (ch.extenders.map Prod.snd)
          (ch.modifiers.map Prod.snd) g1 hok
        obtain ⟨q2k, q2v, q2s⟩ := queueApply_eq ch.modifiers g2
        rcases hq2 : queueApply ch.modifiers g2 with ⟨mods', g3, r2⟩
        rw [hq2] at q2k q2v q2s
        refine ⟨?_, ?_, ?_, ?_⟩ <;>
          simp [Channel.apply, Channel.childList, seqApply, hc, hq1, hq2, happ, hg2,
            q1k, q1v, q2k, q2v, q2s]
  exact ⟨hmain.1, hmain.2.1, hmain.2.2.1, hmain.2.2.2, hide ▸ hce, hidm ▸ hcm⟩

/-- Concrete extension object used by the channel witnesses. -/
def extMk (n s : Nat) : ChanExt Nat Nat Nat Nat :=
  { idFn := fun _ => n
    updFn := fun st msg => (st + msg, none)
    extStateFn := fun st => st
    applyFn := fun st g => (st, (g.insert_tx n st psbtA).2, none)
    state := s }

/-- Concrete well-formed channel used by the channel witnesses. -/
def chW : Channel Nat Nat Nat Nat :=
  { constructor := extMk 0 10
    extenders := [(1, extMk 1 11), (2, extMk 2 12)]
    modifiers := [(3, extMk 3 13)] }

/-- Witness for C1 at the concrete channel `chW`. -/
theorem channel_apply_three_phase_witness :
    chW.WF ∧ applyThreePhase chW TxGraph.default :=
  ⟨by decide, channel_apply_three_phase chW TxGraph.default (by decide)⟩

theorem queueUpd_eq {N S M St : Type} (msg : M) (l : List (N × ChanExt N S M St)) :
    (queueUpd msg l).1.map Prod.fst = l.map Prod.fst ∧
    (queueUpd msg l).1.map Prod.snd = (seqUpd msg (l.map Prod.snd)).1 ∧
    (queueUpd msg l).2 = (seqUpd msg (l.map Prod.snd)).2 := by
  induction l with
  | nil => exact ⟨rfl, rfl, rfl⟩
  | cons p rest ih =>
    obtain ⟨k, e⟩ := p
    rcases hre : ChanExt.runUpd e msg with ⟨e', r⟩
    cases r with
    | some err => simp [queueUpd, seqUpd, hre]
    | none =>
      obtain ⟨ih1, ih2, ih3⟩ := ih
      rcases hq : queueUpd msg rest with ⟨rest', rr⟩
      rcases hs : seqUpd msg (List.map Prod.snd rest) with ⟨rest2', rr2⟩
      rw [hq] at ih1 ih2 ih3
      rw [hs] at ih2 ih3
      simp [queueUpd, seqUpd, hre, hq, hs, ih1, ih2, ih3]

theorem seqUpd_append_err {N S M St : Type} (msg : M) (l₁ l₂ : List (ChanExt N S M St))
    (e : Error) (h : (seqUpd msg l₁).2 = some e) :
    seqUpd msg (l₁ ++ l₂) = ((seqUpd msg l₁).1 ++ l₂, some e) := by
  induction l₁ with
  | nil => simp [seqUpd] at h
  | cons a rest ih =>
    rcases hra : ChanExt.runUpd a msg with ⟨a', r⟩
    cases r with
    | some err =>
      simp only [List.cons_append, seqUpd, hra] at h ⊢
      simp at h
      subst h
      simp
    | none =>
      simp only [List.cons_append, seqUpd, hra] at h ⊢
      rcases hs : seqUpd msg rest with ⟨rest', r2⟩
      rw [hs] at h
      simp at h
      subst h
      have hih := ih (by rw [hs])
      rw [hs] at hih
      simp only [List.append_eq]
      rw [hih]

theorem seqUpd_append_ok {N S M St : Type} (msg : M) (l₁ l₂ : List (ChanExt N S M St))
    (h : (seqUpd msg l₁).2 = none) :
    seqUpd msg (l₁ ++ l₂) =
      ((seqUpd msg l₁).1 ++ (seqUpd msg l₂).1, (seqUpd msg l₂).2) := by
  induction l₁ with
  | nil => simp [seqUpd]
  | cons a rest ih =>
    rcases hra : ChanExt.runUpd a msg with ⟨a', r⟩
    cases r with
    | some err =>
      simp only [seqUpd, hra] at h
      simp at h
    | none =>
      simp only [List.cons_append, seqUpd, hra] at h ⊢
      rcases hs : seqUpd msg rest with ⟨rest', r2⟩
      rw [hs] at h
      simp at h
      subst h
      have hih := ih (by rw [hs])
      rw [hs] at hih
      simp only [List.append_eq]
      rw [hih]

/-! ### Claim theorem for C2 -/

/-- The property C2 asserts of `Channel::update_from_peer`, packaged: if
the nomenclature-level reaction (step 1) fails, that result and error are
returned; otherwise the code-side run produces exactly the error and
updated children of the specification-side sequential run over
constructor, then extenders, then modifiers of the post-reaction channel
(so the whole sequence short-circuits at the first error, returns it,
and keeps the side effects of earlier steps); keys are untouched; and
the extender and modifier visit orders are strictly ascending in
identity. -/
def updThreePhase {N S M St : Type} [LinearOrder N]
    (nomUpd : Channel N S M St → M → Channel N S M St × Option Error)
    (ch : Channel N S M St) (msg : M) : Prop :=
  match nomUpd ch msg with
  | (ch1, some e) => Channel.update_from_peer nomUpd ch msg = (ch1, some e)
  | (ch1, none) =>
    ((Channel.update_from_peer nomUpd ch msg).2 = (seqUpd msg ch1.childList).2) ∧
    ((Channel.update_from_peer nomUpd ch msg).1.childList = (seqUpd msg ch1.childList).1) ∧
    ((Channel.update_from_peer nomUpd ch msg).1.extenders.map Prod.fst =
      ch1.extenders.map Prod.fst) ∧
    ((Channel.update_from_peer nomUpd ch msg).1.modifiers.map Prod.fst =
      ch1.modifiers.map Prod.fst) ∧
    List.Chain' (· < ·) (ch1.extenders.map (fun p => ChanExt.identity p.2)) ∧
    List.Chain' (· < ·) (ch1.modifiers.map (fun p => ChanExt.identity p.2))

/-- C2: `Channel::update_from_peer` executes (1) the nomenclature-level
reaction, (2) the constructor's `update_from_peer`, (3) every extender's
`update_from_peer` in ascending identity order, (4) every modifier's
`update_from_peer` in ascending identity order; the whole sequence
short-circuits at the first error, returns that error, and leaves side
effects of earlier steps in place (no rollback). -/
theorem channel_update_three_phase {N S M St : Type} [LinearOrder N]
    (nomUpd : Channel N S M St → M → Channel N S M St × Option Error)
    (ch : Channel N S M St) (msg : M)
    (hwf : ((nomUpd ch msg).1).WF) :
    updThreePhase nomUpd ch msg := by
  unfold updThreePhase
  rcases hn : nomUpd ch msg with ⟨ch1, rn⟩
  rw [hn] at hwf
  obtain ⟨hce, hcm, hie, him⟩ := hwf
  cases rn with
  | some e => simp [Channel.update_from_peer, hn]
  | none =>
    have hide : ch1.extenders.map (fun p => ChanExt.identity p.2) = mapKeys ch1.extenders :=
      List.map_eq_map_iff.mpr (fun p hp => hie p hp)
    have hidm : ch1.modifiers.map (fun p => ChanExt.identity p.2) = mapKeys ch1.modifiers :=
      List.map_eq_map_iff.mpr (fun p hp => him p hp)
    have hmain :
        ((Channel.update_from_peer nomUpd ch msg).2 = (seqUpd msg ch1.childList).2) ∧
        ((Channel.update_from_peer nomUpd ch msg).1.childList = (seqUpd msg ch1.childList).1) ∧
        ((Channel.update_from_peer nomUpd ch msg).1.extenders.map Prod.fst =
          ch1.extenders.map Prod.fst) ∧
        ((Channel.update_from_peer nomUpd ch msg).1.modifiers.map Prod.fst =
          ch1.modifiers.map Prod.fst) := by
      rcases hcu : ChanExt.runUpd ch1.constructor msg with ⟨c', r⟩
      cases r with
      | some e =>
        refine ⟨?_, ?_, ?_, ?_⟩ <;>
          simp [Channel.update_from_peer, Channel.childList, seqUpd, hn, hcu]
      | none =>
        obtain ⟨q1k, q1v, q1s⟩ := queueUpd_eq msg ch1.extenders
        rcases hq1 : queueUpd msg ch1.extenders with ⟨exts', r1⟩
        rw [hq1] at q1k q1v q1s
        cases r1 with
        | some e =>
          have herr : (seqUpd msg (ch1.extenders.map Prod.snd)).2 = some e := by
            rw [← q1s]
          have happ := seqUpd_append_err msg (ch1.extenders.map Prod.snd)
            (ch1.modifiers.map Prod.snd) e herr
          refine ⟨?_, ?_, ?_, ?_⟩ <;>
            simp [Channel.update_from_peer, Channel.childList, seqUpd, hn, hcu, hq1,
              happ, q1k, q1v]
        | none =>
          have hok : (seqUpd msg (ch1.extenders.map Prod.snd)).2 = none := by
            rw [← q1s]
          have happ := seqUpd_append_ok msg (ch1.extenders.map Prod.snd)
            (ch1.modifiers.map Prod.snd) hok
          obtain ⟨q2k, q2v, q2s⟩ := queueUpd_eq msg ch1.modifiers
          rcases hq2 : queueUpd msg ch1.modifiers with ⟨mods', r2⟩
          rw [hq2] at q2k q2v q2s
          refine ⟨?_, ?_, ?_, ?_⟩ <;>
            simp [Channel.update_from_peer, Channel.childList, seqUpd, hn, hcu, hq1,
              hq2, happ, q1k, q1v, q2k, q2v, q2s]
    exact ⟨hmain.1, hmain.2.1, hmain.2.2.1, hmain.2.2.2, hide ▸ hce, hidm ▸ hcm⟩

/-- Nomenclature-level reaction used by the C2 witness: reacts by doing
nothing and reporting success. -/
def nomUpdId : Channel Nat Nat Nat Nat → Nat → Channel Nat Nat Nat Nat × Option Error :=
  fun ch _ => (ch, none)

/-- Witness for C2 at the concrete channel `chW`. -/
theorem channel_update_three_phase_witness :
    ((nomUpdId chW 7).1).WF ∧ updThreePhase nomUpdId chW 7 :=
  ⟨by decide, channel_update_three_phase nomUpdId chW 7 (by decide)⟩

/-! ### Claim theorem for C9 -/

/-- C9: `extension_state()` and `channel_state()` have identical
behavior: both build the same `IntegralState` by inserting the
constructor's state under its identity, then every extender's state
under its identity, then every modifier's state under its identity (the
collections are iterated in ascending identity order), so for any
`Channel` value the two calls return equal snapshots. -/
theorem extension_state_eq_channel_state {N S M St : Type} [LinearOrder N]
    (ch : Channel N S M St) :
    ch.extension_state = ch.channel_state ∧
    ch.channel_state =
      ch.modifiers.foldl (fun data p => mapInsert p.1 p.2.extension_state data)
        (ch.extenders.foldl (fun data p => mapInsert p.1 p.2.extension_state data)
          (mapInsert ch.constructor.identity ch.constructor.extension_state [])) :=
  ⟨rfl, rfl⟩

/-! ### Supporting lemmas for C6 -/

theorem mem_mapInsert {K V : Type} [LinearOrder K] (k : K) (v : V) (l : List (K × V))
    (p : K × V) (hp : p ∈ mapInsert k v l) : p = (k, v) ∨ p ∈ l := by
  induction l with
  | nil => simpa [mapInsert] using hp
  | cons q rest ih =>
    obtain ⟨k', v'⟩ := q
    by_cases h1 : k < k'
    · simp [mapInsert, h1] at hp
      rcases hp with h | h | h
      · exact Or.inl (by simp [h])
      · exact Or.inr (by simp [h])
      · exact Or.inr (List.mem_cons_of_mem _ h)
    · by_cases h2 : k = k'
      · simp [mapInsert, h1, h2] at hp
        rcases hp with h | h
        · exact Or.inl (by simp [h, h2])
        · exact Or.inr (List.mem_cons_of_mem _ h)
      · simp [mapInsert, h1, h2] at hp
        rcases hp with h | h
        · exact Or.inr (by simp [h])
        · rcases ih (by simpa using h) with h3 | h3
          · exact Or.inl h3
          · exact Or.inr (List.mem_cons_of_mem _ h3)

theorem mem_mapInsert_self {K V : Type} [LinearOrder K] (k : K) (v : V)
    (l : List (K × V)) : (k, v) ∈ mapInsert k v l := by
  induction l with
  | nil => simp [mapInsert]
  | cons q rest ih =>
    obtain ⟨k', v'⟩ := q
    by_cases h1 : k < k'
    · simp [mapInsert, h1]
    · by_cases h2 : k = k'
      · simp [mapInsert, h1, h2]
      · simp [mapInsert, h1, h2]
        exact ih

/-- Last element of a list satisfying a predicate (the "latest write"
when the list records insertions in order). -/
def lastWith {A : Type} (p : A → Bool) : List A → Option A
  | [] => none
  | a :: rest =>
    match lastWith p rest with
    | some x => some x
    | none => if p a then some a else none

theorem foldInsert_lookup {N S M St : Type} [LinearOrder N]
    (l : List (ChanExt N S M St)) (q0 : List (N × ChanExt N S M St)) (k : N) :
    mapLookup k (l.foldl (fun queue e => mapInsert e.identity e queue) q0) =
      match lastWith (fun x => decide (ChanExt.identity x = k)) l with
      | some x => some x
      | none => mapLookup k q0 := by
  induction l generalizing q0 with
  | nil => simp [lastWith]
  | cons e rest ih =>
    rw [List.foldl_cons, ih]
    rw [lastWith]
    cases hlw : lastWith (fun x => decide (ChanExt.identity x = k)) rest with
    | some x => simp
    | none =>
      simp only []
      by_cases hpe : ChanExt.identity e = k
      · subst hpe
        simp [mapLookup_insert_self]
      · simp [hpe, mapLookup_insert_ne _ _ _ _ (fun hx => hpe hx.symm)]

theorem foldInsert_keys_chain {N S M St : Type} [LinearOrder N]
    (l : List (ChanExt N S M St)) (q0 : List (N × ChanExt N S M St))
    (hq : List.Chain' (· < ·) (mapKeys q0)) :
    List.Chain' (· < ·)
      (mapKeys (l.foldl (fun queue e => mapInsert e.identity e queue) q0)) := by
  induction l generalizing q0 with
  | nil => exact hq
  | cons e rest ih => exact ih _ (mapKeys_insert_chain _ _ _ hq)

theorem foldInsert_identity {N S M St : Type} [LinearOrder N]
    (l : List (ChanExt N S M St)) (q0 : List (N × ChanExt N S M St))
    (hq : ∀ p ∈ q0, ChanExt.identity p.2 = p.1) :
    ∀ p ∈ l.foldl (fun queue e => mapInsert e.identity e queue) q0,
      ChanExt.identity p.2 = p.1 := by
  induction l generalizing q0 with
  | nil => exact hq
  | cons e rest ih =>
    refine ih _ ?_
    intro p hp
    rcases mem_mapInsert _ _ _ _ hp with h | h
    · subst h; rfl
    · exact hq p h

theorem chain_keys_nodup {K : Type} [LinearOrder K] (l : List K)
    (h : List.Chain' (· < ·) l) : l.Nodup := by
  have hpw : List.Pairwise (· < ·) l := List.chain'_iff_pairwise.1 h
  exact hpw.imp ne_of_lt

theorem foldState_lookup_not_mem {N S M St : Type} [LinearOrder N]
    (l : List (N × ChanExt N S M St)) (d0 : List (N × S)) (k : N)
    (hk : k ∉ mapKeys l) :
    mapLookup k (l.foldl (fun data p => mapInsert p.1 p.2.extension_state data) d0) =
      mapLookup k d0 := by
  induction l generalizing d0 with
  | nil => rfl
  | cons p rest ih =>
    obtain ⟨k', e'⟩ := p
    have hk1 : k ≠ k' := by
      intro hx
      exact hk (by simp [mapKeys, hx])
    have hk2 : k ∉ mapKeys rest := by
      intro hx
      exact hk (by simp [mapKeys] at hx ⊢; exact Or.inr hx)
    rw [List.foldl_cons, ih _ hk2, mapLookup_insert_ne _ _ _ _ hk1]

theorem foldState_lookup_mem {N S M St : Type} [LinearOrder N]
    (l : List (N × ChanExt N S M St)) (d0 : List (N × S)) (k : N)
    (e : ChanExt N S M St) (hnd : (mapKeys l).Nodup) (hmem : (k, e) ∈ l) :
    mapLookup k (l.foldl (fun data p => mapInsert p.1 p.2.extension_state data) d0) =
      some (ChanExt.extension_state e) := by
  induction l generalizing d0 with
  | nil => cases hmem
  | cons p rest ih =>
    obtain ⟨k', e'⟩ := p
    have hnd' : (mapKeys ((k', e') :: rest)).Nodup = (k' :: mapKeys rest).Nodup := rfl
    rw [hnd'] at hnd
    rcases List.mem_cons.1 hmem with h | h
    · have hk : k = k' := congrArg Prod.fst h
      subst hk
      have he : e = e' := congrArg Prod.snd h
      subst he
      have hk2 : k ∉ mapKeys rest := (List.nodup_cons.1 hnd).1
      rw [List.foldl_cons, foldState_lookup_not_mem rest _ k hk2,
        mapLookup_insert_self]
    · exact ih _ ((List.nodup_cons.1 hnd).2) h

/-! ### Claim theorem for C6 -/

/-- The property C6 asserts of the identity-keyed collections, packaged
for the channel `ch`, candidate extension `e`, lookup key `k` and
construction inputs `c`, `exts`, `mods`: `Channel::with` builds
strictly-ascending (hence duplicate-free) identity-keyed collections in
which the binding of each identity is the last listed extension with
that identity (last-write-wins); `add_extension` / `add_modifier`
preserve well-formedness, bind the inserted extension under its
identity (replacing any previous holder) and leave other identities
untouched; and the aggregated state snapshot after `add_extension`
reflects the latest entry for that identity. -/
def identityKeyed {N S M St : Type} [LinearOrder N]
    (c : ChanExt N S M St) (exts mods : List (ChanExt N S M St))
    (ch : Channel N S M St) (e : ChanExt N S M St) (k : N) : Prop :=
  (Channel.with' c exts mods).WF ∧
  (mapKeys (Channel.with' c exts mods).extenders).Nodup ∧
  (mapKeys (Channel.with' c exts mods).modifiers).Nodup ∧
  (mapLookup k (Channel.with' c exts mods).extenders =
    lastWith (fun x => decide (ChanExt.identity x = k)) exts) ∧
  (mapLookup k (Channel.with' c exts mods).modifiers =
    lastWith (fun x => decide (ChanExt.identity x = k)) mods) ∧
  (ch.add_extension e).WF ∧
  (ch.add_modifier e).WF ∧
  (mapKeys (ch.add_extension e).extenders).Nodup ∧
  (mapLookup (ChanExt.identity e) (ch.add_extension e).extenders = some e) ∧
  (mapLookup (ChanExt.identity e) (ch.add_modifier e).modifiers = some e) ∧
  (k ≠ ChanExt.identity e →
    mapLookup k (ch.add_extension e).extenders = mapLookup k ch.extenders) ∧
  (mapLookup (ChanExt.identity e) ((ch.add_extension e).extension_state) =
    some (ChanExt.extension_state e))

/-- C6: each of the extenders and modifiers collections holds at most
one extension per distinct identity: `Channel::with`, `add_extension`
and `add_modifier` insert keyed by the extension's identity, and
inserting an extension whose identity is already present replaces the
previous holder (last-write-wins), so the aggregated state snapshot
reflects only the latest entry for that identity. -/
theorem channel_identity_keyed {N S M St : Type} [LinearOrder N]
    (c : ChanExt N S M St) (exts mods : List (ChanExt N S M St))
    (ch : Channel N S M St) (e : ChanExt N S M St) (k : N)
    (hwf : ch.WF) (hmod : ChanExt.identity e ∉ mapKeys ch.modifiers) :
    identityKeyed c exts mods ch e k := by
  obtain ⟨hce, hcm, hie, him⟩ := hwf
  have hwfWith : (Channel.with' c exts mods).WF := by
    refine ⟨?_, ?_, ?_, ?_⟩
    · exact foldInsert_keys_chain exts [] (by simp [mapKeys])
    · exact foldInsert_keys_chain mods [] (by simp [mapKeys])
    · exact foldInsert_identity exts [] (by intro p hp; cases hp)
    · exact foldInsert_identity mods [] (by intro p hp; cases hp)
  have hwfAddE : (ch.add_extension e).WF := by
    refine ⟨mapKeys_insert_chain _ _ _ hce, hcm, ?_, him⟩
    intro p hp
    rcases mem_mapInsert _ _ _ _ hp with h | h
    · subst h; rfl
    · exact hie p h
  have hwfAddM : (ch.add_modifier e).WF := by
    refine ⟨hce, mapKeys_insert_chain _ _ _ hcm, hie, ?_⟩
    intro p hp
    rcases mem_mapInsert _ _ _ _ hp with h | h
    · subst h; rfl
    · exact him p h
  refine ⟨hwfWith, chain_keys_nodup _ hwfWith.1, chain_keys_nodup _ hwfWith.2.1,
    ?_, ?_, hwfAddE, hwfAddM, chain_keys_nodup _ hwfAddE.1, ?_, ?_, ?_, ?_⟩
  · rw [show (Channel.with' c exts mods).extenders =
      exts.foldl (fun queue e => mapInsert e.identity e queue) [] from rfl]
    rw [foldInsert_lookup]
    cases lastWith (fun x => decide (ChanExt.identity x = k)) exts <;> rfl
  · rw [show (Channel.with' c exts mods).modifiers =
      mods.foldl (fun queue e => mapInsert e.identity e queue) [] from rfl]
    rw [foldInsert_lookup]
    cases lastWith (fun x => decide (ChanExt.identity x = k)) mods <;> rfl
  · exact mapLookup_insert_self _ _ _
  · exact mapLookup_insert_self _ _ _
  · intro hk
    exact mapLookup_insert_ne _ _ _ _ hk
  · have hext' : (ChanExt.identity e, e) ∈ (ch.add_extension e).extenders :=
      mem_mapInsert_self _ _ _
    have hnd : (mapKeys (ch.add_extension e).extenders).Nodup :=
      chain_keys_nodup _ hwfAddE.1
    show mapLookup (ChanExt.identity e)
      (ch.modifiers.foldl (fun data p => mapInsert p.1 p.2.extension_state data)
        ((ch.add_extension e).extenders.foldl
          (fun data p => mapInsert p.1 p.2.extension_state data)
          (mapInsert ch.constructor.identity ch.constructor.extension_state []))) =
      some (ChanExt.extension_state e)
    rw [foldState_lookup_not_mem ch.modifiers _ _ hmod]
    exact foldState_lookup_mem _ _ _ _ hnd hext'

/-- Witness for C6: concrete construction with a duplicated extender
identity (1 appears twice in the input list) and a replacement insert. -/
theorem channel_identity_keyed_witness :
    chW.WF ∧ (ChanExt.identity (extMk 1 50) ∉ mapKeys chW.modifiers) ∧
    identityKeyed (extMk 0 10) [extMk 1 11, extMk 2 12, extMk 1 99] [extMk 3 13]
      chW (extMk 1 50) 1 :=
  ⟨by decide, by decide,
   channel_identity_keyed (extMk 0 10) [extMk 1 11, extMk 2 12, extMk 1 99]
     [extMk 3 13] chW (extMk 1 50) 1 (by decide) (by decide)⟩

end ChannelSpec
